import Mathlib

/-!
# libpriqueue: a comparator-ordered priority queue on a singly linked chain

Shallow embedding of `src/scheduler/src/libpriqueue/libpriqueue.c`.

* A `Node *` is the chain it owns: `[]` is `NULL`, and `p :: n` points to a node whose
  `pointer` field is `p` and whose `next` field is the chain `n`.
* Element references are addresses of caller-owned data (`Nat`, with `0` for `NULL`).
* A `void *` is a `VoidPtr`: either an element reference or the address of one of the
  queue's own nodes (the code hands node addresses to the comparator and to its caller).
* `int` is `Int`; the counters stay in range for every chain shorter than `2^31` nodes.
* `malloc` is taken to succeed; `free` has no effect on the owned chain.
* An operation returns `none` exactly when the C code would read a field of a `NULL`
  node (undefined behaviour); otherwise it returns its result and the new queue.
-/

namespace Priqueue

/-- A value of type `void *`: the address of caller data (`data 0` is `NULL`), or the
address of a queue node, given by the node's `pointer` and `next` fields. -/
inductive VoidPtr where
  | data (addr : Nat) : VoidPtr
  | node (pointer : Nat) (next : List Nat) : VoidPtr
  deriving DecidableEq, Repr

/-- The null pointer. -/
def NULL : VoidPtr := VoidPtr.data 0

/-- The struct `_priqueue_t`: root of the chain, element count, comparer. -/
structure priqueue_t where
  m_root : List Nat
  m_size : Int
  m_comp : VoidPtr → VoidPtr → Int

/-- Initialises the queue: no root, size zero, the given comparer. -/
def priqueue_init (comparer : VoidPtr → VoidPtr → Int) : priqueue_t :=
  { m_root := [], m_size := 0, m_comp := comparer }

/-- The `while` loop of `priqueue_offer`. `visited` is the chain from the root up to and
including `parent`, the second list is `temp`, the integer is `index`. -/
def offer_scan (m_comp : VoidPtr → VoidPtr → Int) (ptr : Nat) :
    List Nat → List Nat → Int → List Nat × List Nat × Int
  | visited, [], index => (visited, [], index)
  | visited, p :: next, index =>
    if m_comp (VoidPtr.data p) (VoidPtr.data ptr) < 0 then
      offer_scan m_comp ptr (visited ++ [p]) next (index + 1)
    else (visited, p :: next, index)

/-- Inserts `ptr`; returns the index computed by the scan and the new queue. -/
def priqueue_offer (q : priqueue_t) (ptr : Nat) : Int × priqueue_t :=
  if q.m_size = 0 then
    (0, { q with m_root := [ptr], m_size := 1 })
  else
    match offer_scan q.m_comp ptr [] q.m_root 0 with
    | (visited, temp, index) =>
      if index = 0 then
        (0, { q with m_root := ptr :: q.m_root, m_size := q.m_size + 1 })
      else
        (index, { q with m_root := visited ++ ptr :: temp, m_size := q.m_size + 1 })

/-- Reads the head element, `NULL` when there is no root. -/
def priqueue_peek (q : priqueue_t) : VoidPtr × priqueue_t :=
  match q.m_root with
  | p :: _ => (VoidPtr.data p, q)
  | [] => (NULL, q)

/-- Removes and returns the head. With `m_size != 0` and no root the code reads
`temp->pointer` on `NULL`. -/
def priqueue_poll (q : priqueue_t) : Option (VoidPtr × priqueue_t) :=
  if q.m_size = 0 then some (NULL, q)
  else
    match q.m_root with
    | [] => none
    | p :: next => some (VoidPtr.data p, { q with m_root := next, m_size := q.m_size - 1 })

/-- The `for` loop of `priqueue_at`: `temp = temp->next`, the given number of times. -/
def at_walk : Nat → List Nat → Option (List Nat)
  | 0, temp => some temp
  | _ + 1, [] => none
  | k + 1, _ :: next => at_walk k next

/-- Positional read. The loop runs for `i = 1 .. index`, that is `index.toNat` times. -/
def priqueue_at (q : priqueue_t) (index : Int) : Option (VoidPtr × priqueue_t) :=
  if index ≥ q.m_size then some (NULL, q)
  else
    match at_walk index.toNat q.m_root with
    | some (p :: _) => some (VoidPtr.data p, q)
    | _ => none

/-- The `while (cur != NULL)` loop of `priqueue_remove`. `kept` is the chain from the
root up to and including `parent`, the second list is `cur`; the comparer is called on
`ptr` and on the node `cur` itself. -/
def remove_scan (m_comp : VoidPtr → VoidPtr → Int) (ptr : Nat) :
    List Nat → List Nat → Int → Int → List Nat × Int × Int
  | kept, [], numRemoved, m_size => (kept, numRemoved, m_size)
  | kept, p :: next, numRemoved, m_size =>
    if m_comp (VoidPtr.data ptr) (VoidPtr.node p next) = 0 then
      remove_scan m_comp ptr kept next (numRemoved + 1) (m_size - 1)
    else
      remove_scan m_comp ptr (kept ++ [p]) next numRemoved m_size

/-- Body of `priqueue_remove` on the fields `m_root` and `m_size`; the recursive call is
the one of the head case. Returns the count, the new root and the new size. -/
def remove_body (m_comp : VoidPtr → VoidPtr → Int) (ptr : Nat) :
    List Nat → Int → Option (Int × List Nat × Int)
  | [], m_size => if m_size = 0 then some (0, [], m_size) else none
  | p :: next, m_size =>
    if m_size = 0 then some (0, p :: next, m_size)
    else if m_comp (VoidPtr.data ptr) (VoidPtr.data p) = 0 then
      match remove_body m_comp ptr next (m_size - 1) with
      | none => none
      | some (n, root, size) => some (n + 1, root, size)
    else
      match remove_scan m_comp ptr [p] next 0 m_size with
      | (kept, numRemoved, size) => some (numRemoved, kept, size)

/-- Removes the entries the code matches against `ptr`; returns how many. -/
def priqueue_remove (q : priqueue_t) (ptr : Nat) : Option (Int × priqueue_t) :=
  match remove_body q.m_comp ptr q.m_root q.m_size with
  | none => none
  | some (n, root, size) => some (n, { q with m_root := root, m_size := size })

/-- The `for` loop of `priqueue_remove_at`: `parent = temp; temp = temp->next`, the given
number of times. `visited` is the chain from the root up to and including `parent`. -/
def remove_at_walk : Nat → List Nat → List Nat → Option (List Nat × List Nat)
  | 0, visited, temp => some (visited, temp)
  | _ + 1, _, [] => none
  | k + 1, visited, p :: next => remove_at_walk k (visited ++ [p]) next

/-- Positional removal. Returns `temp`, a node address. -/
def priqueue_remove_at (q : priqueue_t) (index : Int) : Option (VoidPtr × priqueue_t) :=
  if q.m_size ≤ index then some (NULL, q)
  else
    match q.m_root with
    | [] => none
    | p :: next =>
      if index = 0 then
        some (VoidPtr.node p next, { q with m_root := next, m_size := q.m_size - 1 })
      else
        match remove_at_walk index.toNat [p] next with
        | some (visited, t :: tnext) =>
          some (VoidPtr.node t tnext,
            { q with m_root := visited ++ tnext, m_size := q.m_size - 1 })
        | _ => none

/-- Number of elements recorded in the queue. -/
def priqueue_size (q : priqueue_t) : Int := q.m_size

/-- The loop of `priqueue_destroy`, at most `fuel` iterations. -/
def destroy_loop : Nat → priqueue_t → Option priqueue_t
  | 0, q => some q
  | fuel + 1, q =>
    if q.m_size > 0 then
      match priqueue_remove_at q 0 with
      | none => none
      | some (_, q1) => destroy_loop fuel q1
    else some q

/-- Removes index 0 while `m_size > 0`. Every iteration lowers `m_size` by one, so
`m_size.toNat` iterations exhaust the loop. -/
def priqueue_destroy (q : priqueue_t) : Option priqueue_t :=
  destroy_loop q.m_size.toNat q

/-- Folds `priqueue_offer` over a list of elements, first element first. -/
def offer_all (q : priqueue_t) : List Nat → priqueue_t
  | [] => q
  | x :: xs => offer_all (priqueue_offer q x).2 xs

/-- The count agrees with the chain. -/
def WellFormed (q : priqueue_t) : Prop := q.m_size = (q.m_root.length : Int)

/-- A comparer that behaves as a total preorder on element references: the sign flips
when the arguments are swapped, `≤ 0` is transitive, and any two elements compare. -/
structure Consistent (comp : VoidPtr → VoidPtr → Int) : Prop where
  antisymm : ∀ a b : Nat,
    Int.sign (comp (VoidPtr.data a) (VoidPtr.data b))
      = - Int.sign (comp (VoidPtr.data b) (VoidPtr.data a))
  trans : ∀ a b c : Nat, comp (VoidPtr.data a) (VoidPtr.data b) ≤ 0 →
    comp (VoidPtr.data b) (VoidPtr.data c) ≤ 0 → comp (VoidPtr.data a) (VoidPtr.data c) ≤ 0
  total : ∀ a b : Nat,
    comp (VoidPtr.data a) (VoidPtr.data b) ≤ 0 ∨ comp (VoidPtr.data b) (VoidPtr.data a) ≤ 0

/-- An example comparer: ascending address order on element references; it never
answers zero when handed a node address. -/
def addrComp : VoidPtr → VoidPtr → Int
  | VoidPtr.data a, VoidPtr.data b => (a : Int) - (b : Int)
  | _, _ => 1

/-- An example comparer with ties: the element at address `a` has priority `a / 10`,
ascending; it never answers zero when handed a node address. -/
def levelComp : VoidPtr → VoidPtr → Int
  | VoidPtr.data a, VoidPtr.data b => ((a / 10 : Nat) : Int) - ((b / 10 : Nat) : Int)
  | _, _ => 1

/-- One call of the interface, with its arguments. -/
inductive Call where
  | offer (ptr : Nat) : Call
  | peek : Call
  | poll : Call
  | at_ (index : Int) : Call
  | remove (ptr : Nat) : Call
  | remove_at (index : Int) : Call
  | destroy : Call

/-- The queue after one call; `none` when the call reads a field of a `NULL` node. -/
def step (q : priqueue_t) : Call → Option priqueue_t
  | Call.offer ptr => some (priqueue_offer q ptr).2
  | Call.peek => some (priqueue_peek q).2
  | Call.poll => (priqueue_poll q).map Prod.snd
  | Call.at_ index => (priqueue_at q index).map Prod.snd
  | Call.remove ptr => (priqueue_remove q ptr).map Prod.snd
  | Call.remove_at index => (priqueue_remove_at q index).map Prod.snd
  | Call.destroy => priqueue_destroy q

/-- The queue after a sequence of calls, first call first. -/
def run (q : priqueue_t) : List Call → Option priqueue_t
  | [] => some q
  | c :: cs =>
    match step q c with
    | none => none
    | some q1 => run q1 cs

/-- The position whose node `priqueue_remove_at` unlinks for an index below `m_size`:
the head for index 0; otherwise the walk starts on the second node and then advances
once for each `i = 1 .. index`. -/
def unlinked (index : Int) : Nat := if index = 0 then 0 else index.toNat + 1

/-- The test of the scan in `priqueue_offer`, as a Boolean predicate on stored elements. -/
def less (m_comp : VoidPtr → VoidPtr → Int) (ptr : Nat) (e : Nat) : Bool :=
  decide (m_comp (VoidPtr.data e) (VoidPtr.data ptr) < 0)

/-- The order the comparer induces on element references: `compare(x, y) ≤ 0`. -/
def Leq (m_comp : VoidPtr → VoidPtr → Int) (x y : Nat) : Prop :=
  m_comp (VoidPtr.data x) (VoidPtr.data y) ≤ 0

/-- Invariant I1: every adjacent pair of the chain, head to tail, is in order. -/
def NonDecreasing (m_comp : VoidPtr → VoidPtr → Int) (l : List Nat) : Prop :=
  List.Chain' (Leq m_comp) l

/-- A caller that polls until `priqueue_poll` returns `NULL`, collecting the values
returned before that. `none` when a poll reads through `NULL` or when `fuel` polls have
not yet met a `NULL` result. -/
def drain : Nat → priqueue_t → Option (List VoidPtr × priqueue_t)
  | 0, _ => none
  | fuel + 1, q =>
    match priqueue_poll q with
    | none => none
    | some (v, q1) =>
      if v = NULL then some ([], q1)
      else
        match drain fuel q1 with
        | none => none
        | some (vs, q2) => some (v :: vs, q2)

/-! ## Generic lemmas on the loops -/

theorem offer_scan_eq (m_comp : VoidPtr → VoidPtr → Int) (ptr : Nat) :
    ∀ (l visited : List Nat) (index : Int),
      offer_scan m_comp ptr visited l index
        = (visited ++ l.takeWhile (less m_comp ptr), l.dropWhile (less m_comp ptr),
            index + ((l.takeWhile (less m_comp ptr)).length : Int))
  | [], visited, index => by simp [offer_scan]
  | p :: next, visited, index => by
    by_cases h : m_comp (VoidPtr.data p) (VoidPtr.data ptr) < 0
    · have hl : less m_comp ptr p = true := by simp [less, h]
      simp only [offer_scan, h, if_true, offer_scan_eq m_comp ptr next, List.takeWhile_cons, hl,
        List.dropWhile_cons, List.length_cons]
      simp [add_assoc, add_comm]
    · have hl : less m_comp ptr p = false := by simp [less, h]
      simp [offer_scan, h, List.takeWhile_cons, hl, List.dropWhile_cons]

/-- What `priqueue_offer` computes on a queue whose zero size means an empty chain. -/
theorem offer_eq (q : priqueue_t) (ptr : Nat) (h : q.m_size = 0 → q.m_root = []) :
    priqueue_offer q ptr
      = (((q.m_root.takeWhile (less q.m_comp ptr)).length : Int),
          { q with
            m_root := q.m_root.takeWhile (less q.m_comp ptr) ++ ptr ::
              q.m_root.dropWhile (less q.m_comp ptr),
            m_size := q.m_size + 1 }) := by
  unfold priqueue_offer
  by_cases h0 : q.m_size = 0
  · simp [h0, h h0]
  · simp only [h0, if_false, offer_scan_eq, List.nil_append, zero_add]
    by_cases hi : ((q.m_root.takeWhile (less q.m_comp ptr)).length : Int) = 0
    · have hnil : q.m_root.takeWhile (less q.m_comp ptr) = [] := by
        have : (q.m_root.takeWhile (less q.m_comp ptr)).length = 0 := by exact_mod_cast hi
        exact List.length_eq_zero.mp this
      have hdrop : q.m_root.dropWhile (less q.m_comp ptr) = q.m_root := by
        have := List.takeWhile_append_dropWhile (less q.m_comp ptr) q.m_root
        rw [hnil] at this
        simpa using this
      simp [hnil, hdrop]
    · simp [hi]

theorem Consistent.flip {comp : VoidPtr → VoidPtr → Int} (h : Consistent comp) (a b : Nat)
    (hab : 0 ≤ comp (VoidPtr.data a) (VoidPtr.data b)) :
    comp (VoidPtr.data b) (VoidPtr.data a) ≤ 0 := by
  have hs := h.antisymm a b
  rcases lt_or_eq_of_le hab with hpos | hzero
  · rw [Int.sign_eq_one_of_pos hpos] at hs
    have : Int.sign (comp (VoidPtr.data b) (VoidPtr.data a)) = -1 := by omega
    exact le_of_lt (Int.sign_eq_neg_one_iff_neg.mp this)
  · rw [← hzero, Int.sign_zero] at hs
    have : Int.sign (comp (VoidPtr.data b) (VoidPtr.data a)) = 0 := by omega
    exact le_of_eq (Int.sign_eq_zero_iff_zero.mp this)

theorem Consistent.zero_symm {comp : VoidPtr → VoidPtr → Int} (h : Consistent comp) (a b : Nat)
    (hab : comp (VoidPtr.data a) (VoidPtr.data b) = 0) :
    comp (VoidPtr.data b) (VoidPtr.data a) = 0 := by
  have hs := h.antisymm a b
  rw [hab, Int.sign_zero] at hs
  have : Int.sign (comp (VoidPtr.data b) (VoidPtr.data a)) = 0 := by omega
  exact Int.sign_eq_zero_iff_zero.mp this

/-- Splicing `x` after the strictly smaller run of a non-decreasing chain keeps every
adjacent pair in order. -/
theorem nonDecreasing_splice {comp : VoidPtr → VoidPtr → Int} (h : Consistent comp) (x : Nat) :
    ∀ l : List Nat, NonDecreasing comp l →
      NonDecreasing comp (l.takeWhile (less comp x) ++ x :: l.dropWhile (less comp x))
  | [], _ => by simp [NonDecreasing]
  | a :: l, hl => by
    unfold NonDecreasing at hl ⊢
    by_cases ha : comp (VoidPtr.data a) (VoidPtr.data x) < 0
    · have hla : less comp x a = true := by simp [less, ha]
      have ih := nonDecreasing_splice h x l (List.Chain'.tail hl)
      unfold NonDecreasing at ih
      rw [List.takeWhile_cons, List.dropWhile_cons]
      simp only [hla, if_true, List.cons_append]
      refine List.Chain'.cons' ih ?_
      intro y hy
      cases l with
      | nil => simp at hy; subst hy; exact le_of_lt ha
      | cons b l2 =>
        by_cases hb : less comp x b = true
        · simp [List.takeWhile_cons, hb] at hy
          subst hy
          exact List.Chain'.rel_head hl
        · simp [List.takeWhile_cons, hb] at hy
          subst hy
          exact le_of_lt ha
    · have hla : less comp x a = false := by simp [less, ha]
      rw [List.takeWhile_cons, List.dropWhile_cons]
      simp only [hla, List.nil_append]
      refine List.Chain'.cons ?_ hl
      exact h.flip a x (not_lt.mp ha)

theorem offer_wellFormed (q : priqueue_t) (ptr : Nat) (h : WellFormed q) :
    WellFormed (priqueue_offer q ptr).2 := by
  have h0 : q.m_size = 0 → q.m_root = [] := by
    intro hz
    unfold WellFormed at h
    rw [hz] at h
    exact List.length_eq_zero.mp (by exact_mod_cast h.symm)
  rw [offer_eq q ptr h0]
  unfold WellFormed at h ⊢
  have hlen := congrArg List.length (List.takeWhile_append_dropWhile (less q.m_comp ptr) q.m_root)
  simp only [List.length_append] at hlen
  simp only [List.length_append, List.length_cons]
  rw [h]
  push_cast
  omega

theorem wellFormed_zero {q : priqueue_t} (h : WellFormed q) : q.m_size = 0 → q.m_root = [] := by
  intro hz
  unfold WellFormed at h
  rw [hz] at h
  exact List.length_eq_zero.mp (by exact_mod_cast h.symm)

theorem offer_comp (q : priqueue_t) (ptr : Nat) : (priqueue_offer q ptr).2.m_comp = q.m_comp := by
  unfold priqueue_offer
  split
  · rfl
  · split
    split <;> rfl

theorem offer_nonDecreasing (q : priqueue_t) (ptr : Nat) (hc : Consistent q.m_comp)
    (h : WellFormed q) (hs : NonDecreasing q.m_comp q.m_root) :
    NonDecreasing q.m_comp (priqueue_offer q ptr).2.m_root := by
  rw [offer_eq q ptr (wellFormed_zero h)]
  exact nonDecreasing_splice hc ptr q.m_root hs

theorem offer_all_invariant (xs : List Nat) :
    ∀ q : priqueue_t, Consistent q.m_comp → WellFormed q → NonDecreasing q.m_comp q.m_root →
      (offer_all q xs).m_comp = q.m_comp ∧ WellFormed (offer_all q xs) ∧
        NonDecreasing q.m_comp (offer_all q xs).m_root := by
  induction xs with
  | nil => intro q _ hw hs; exact ⟨rfl, hw, hs⟩
  | cons x xs ih =>
    intro q hc hw hs
    have hq := offer_comp q x
    have := ih (priqueue_offer q x).2 (hq ▸ hc) (offer_wellFormed q x hw)
      (hq ▸ offer_nonDecreasing q x hc hw hs)
    rw [hq] at this
    exact this

theorem offer_perm (q : priqueue_t) (x : Nat) (hw : WellFormed q) :
    (priqueue_offer q x).2.m_root.Perm (x :: q.m_root) := by
  rw [offer_eq q x (wellFormed_zero hw)]
  have h := List.takeWhile_append_dropWhile (less q.m_comp x) q.m_root
  have hmid : (q.m_root.takeWhile (less q.m_comp x) ++ x ::
      q.m_root.dropWhile (less q.m_comp x)).Perm
        (x :: (q.m_root.takeWhile (less q.m_comp x)
          ++ q.m_root.dropWhile (less q.m_comp x))) := List.perm_middle
  rw [h] at hmid
  exact hmid

theorem offer_all_perm (xs : List Nat) :
    ∀ q : priqueue_t, WellFormed q → (offer_all q xs).m_root.Perm (xs ++ q.m_root) := by
  induction xs with
  | nil => intro q _; exact List.Perm.refl _
  | cons x xs ih =>
    intro q hw
    have h1 := ih (priqueue_offer q x).2 (offer_wellFormed q x hw)
    have h2 : (xs ++ (priqueue_offer q x).2.m_root).Perm (xs ++ x :: q.m_root) :=
      List.Perm.append_left xs (offer_perm q x hw)
    have h3 : (xs ++ x :: q.m_root).Perm (x :: (xs ++ q.m_root)) := List.perm_middle
    exact (h1.trans h2).trans h3

theorem addrComp_consistent : Consistent addrComp :=
  { antisymm := by
      intro a b
      simp only [addrComp]
      rw [← Int.sign_neg]
      congr 1
      omega
    trans := by intro a b c; simp only [addrComp]; omega
    total := by intro a b; simp only [addrComp]; omega }

theorem levelComp_consistent : Consistent levelComp :=
  { antisymm := by
      intro a b
      simp only [levelComp]
      rw [← Int.sign_neg]
      congr 1
      omega
    trans := by intro a b c; simp only [levelComp]; omega
    total := by intro a b; simp only [levelComp]; omega }

/-! ## C1 -/

/-- C1 (ordering, I1/P1): for a comparer that is a consistent total preorder, any finite
sequence of `priqueue_offer` calls on a freshly initialised queue leaves a chain in which
every adjacent pair `(x, y)`, head to tail, satisfies `compare(x, y) ≤ 0`; the chain holds
exactly the offered elements. -/
theorem offer_all_sorted (comp : VoidPtr → VoidPtr → Int) (hc : Consistent comp)
    (xs : List Nat) :
    List.Chain' (fun x y => comp (VoidPtr.data x) (VoidPtr.data y) ≤ 0)
        (offer_all (priqueue_init comp) xs).m_root ∧
      (offer_all (priqueue_init comp) xs).m_root.Perm xs :=
  ⟨(offer_all_invariant xs (priqueue_init comp) hc (by simp [WellFormed, priqueue_init])
      (by simp [NonDecreasing, priqueue_init])).2.2,
    by
      have h := offer_all_perm xs (priqueue_init comp) (by simp [WellFormed, priqueue_init])
      simp only [priqueue_init, List.append_nil] at h
      exact h⟩

theorem offer_all_sorted_witness :
    Consistent addrComp ∧
      List.Chain' (fun x y => addrComp (VoidPtr.data x) (VoidPtr.data y) ≤ 0)
        (offer_all (priqueue_init addrComp) [5, 3, 5, 1]).m_root ∧
      (offer_all (priqueue_init addrComp) [5, 3, 5, 1]).m_root = [1, 3, 5, 5] :=
  ⟨addrComp_consistent, (offer_all_sorted addrComp addrComp_consistent [5, 3, 5, 1]).1, rfl⟩

theorem nonDecreasing_pairwise {comp : VoidPtr → VoidPtr → Int} (h : Consistent comp)
    {l : List Nat} (hl : NonDecreasing comp l) : l.Pairwise (Leq comp) := by
  haveI : IsTrans Nat (Leq comp) := ⟨fun a b c => h.trans a b c⟩
  exact List.chain'_iff_pairwise.mp hl

theorem at_walk_eq : ∀ (k : Nat) (l : List Nat), k ≤ l.length → at_walk k l = some (l.drop k)
  | 0, l, _ => by simp [at_walk]
  | k + 1, [], h => by simp at h
  | k + 1, _ :: next, h => by
    simp only [at_walk, List.drop_succ_cons]
    exact at_walk_eq k next (by simpa using h)

theorem at_walk_none : ∀ (k : Nat) (l : List Nat), l.length < k → at_walk k l = none
  | 0, l, h => by simp at h
  | k + 1, [], _ => by simp [at_walk]
  | k + 1, _ :: next, h => by
    simp only [at_walk]
    exact at_walk_none k next (by simpa using h)

/-- In range, `priqueue_at` returns the stored element at that position. -/
theorem at_in_range (q : priqueue_t) (index : Int) (hw : WellFormed q) (h0 : 0 ≤ index)
    (h1 : index < q.m_size) (p : Nat) (hp : q.m_root[index.toNat]? = some p) :
    priqueue_at q index = some (VoidPtr.data p, q) := by
  unfold WellFormed at hw
  have hlt : index.toNat < q.m_root.length := by omega
  unfold priqueue_at
  rw [if_neg (by omega), at_walk_eq _ _ (le_of_lt hlt)]
  have hd : q.m_root.drop index.toNat = p :: q.m_root.drop (index.toNat + 1) := by
    rw [List.getElem?_eq_getElem hlt] at hp
    rw [List.drop_eq_getElem_cons hlt]
    simp at hp
    rw [hp]
  rw [hd]

/-! ## C2 -/

/-- C2 (tie placement, I2/P2): on a well-formed queue that is non-decreasing under a
consistent comparer, `priqueue_offer` splits the old chain as `before ++ after`, stores `x`
between the two at the returned index, no element of `before` ties with `x` (so `x` has a
smaller index than every earlier element that ties with it), and when some earlier element
ties with `x` the element right after `x` is such a tie. And offering `a` then `b` with
`compare(a, b) == 0` into an empty queue gives `priqueue_at 0 = b`, `priqueue_at 1 = a`. -/
theorem offer_tie_placement :
    (∀ (q : priqueue_t) (x : Nat), Consistent q.m_comp → WellFormed q →
      NonDecreasing q.m_comp q.m_root →
      ∃ before after : List Nat,
        q.m_root = before ++ after ∧
        (priqueue_offer q x).2.m_root = before ++ x :: after ∧
        (priqueue_offer q x).1 = (before.length : Int) ∧
        (∀ y ∈ before, q.m_comp (VoidPtr.data y) (VoidPtr.data x) ≠ 0) ∧
        ((∃ y ∈ q.m_root, q.m_comp (VoidPtr.data y) (VoidPtr.data x) = 0) →
          ∃ y rest, after = y :: rest ∧ q.m_comp (VoidPtr.data y) (VoidPtr.data x) = 0)) ∧
    (∀ (comp : VoidPtr → VoidPtr → Int) (a b : Nat),
      comp (VoidPtr.data a) (VoidPtr.data b) = 0 →
      (priqueue_at (offer_all (priqueue_init comp) [a, b]) 0).map Prod.fst
          = some (VoidPtr.data b) ∧
        (priqueue_at (offer_all (priqueue_init comp) [a, b]) 1).map Prod.fst
          = some (VoidPtr.data a)) := by
  constructor
  · intro q x hc hw hs
    refine ⟨q.m_root.takeWhile (less q.m_comp x), q.m_root.dropWhile (less q.m_comp x),
      (List.takeWhile_append_dropWhile _ _).symm, ?_, ?_, ?_, ?_⟩
    · rw [offer_eq q x (wellFormed_zero hw)]
    · rw [offer_eq q x (wellFormed_zero hw)]
    · intro y hy
      have := List.mem_takeWhile_imp hy
      simp only [less, decide_eq_true_eq] at this
      omega
    · rintro ⟨y, hy, hyx⟩
      rw [← List.takeWhile_append_dropWhile (less q.m_comp x) q.m_root, List.mem_append] at hy
      rcases hy with hy | hy
      · have := List.mem_takeWhile_imp hy
        simp only [less, decide_eq_true_eq] at this
        omega
      · have hsuf : NonDecreasing q.m_comp (q.m_root.dropWhile (less q.m_comp x)) :=
          List.Chain'.suffix hs (List.dropWhile_suffix _)
        have hpw := nonDecreasing_pairwise hc hsuf
        have hhead := List.head?_dropWhile_not (less q.m_comp x) q.m_root
        cases hd : q.m_root.dropWhile (less q.m_comp x) with
        | nil => rw [hd] at hy; simp at hy
        | cons e rest =>
          rw [hd] at hy hpw hhead
          refine ⟨e, rest, rfl, ?_⟩
          simp only [List.head?_cons, less, decide_eq_false_iff_not, not_lt] at hhead
          have hge : 0 ≤ q.m_comp (VoidPtr.data e) (VoidPtr.data x) := by
            simpa [less] using hhead
          have hle : q.m_comp (VoidPtr.data e) (VoidPtr.data x) ≤ 0 := by
            rcases List.mem_cons.mp hy with rfl | hmem
            · exact le_of_eq hyx
            · exact hc.trans e y x (List.rel_of_pairwise_cons hpw hmem) (le_of_eq hyx)
          omega
  · intro comp a b hab
    have hroot : (offer_all (priqueue_init comp) [a, b]).m_root = [b, a] := by
      simp [offer_all, priqueue_init, priqueue_offer, offer_scan, hab]
    have hsize : (offer_all (priqueue_init comp) [a, b]).m_size = 2 := by
      simp [offer_all, priqueue_init, priqueue_offer, offer_scan, hab]
    have hw : WellFormed (offer_all (priqueue_init comp) [a, b]) := by
      simp [WellFormed, hroot, hsize]
    constructor
    · rw [at_in_range _ 0 hw (by omega) (by omega) b (by simp [hroot])]; rfl
    · rw [at_in_range _ 1 hw (by omega) (by omega) a (by simp [hroot])]; rfl

theorem offer_tie_placement_witness :
    (Consistent levelComp ∧ WellFormed ⟨[1, 10, 12, 20], 4, levelComp⟩ ∧
      NonDecreasing levelComp [1, 10, 12, 20] ∧
      (priqueue_offer ⟨[1, 10, 12, 20], 4, levelComp⟩ 11).2.m_root = [1, 11, 10, 12, 20] ∧
      ∃ before after : List Nat,
        [1, 10, 12, 20] = before ++ after ∧
        (priqueue_offer ⟨[1, 10, 12, 20], 4, levelComp⟩ 11).2.m_root
          = before ++ 11 :: after) ∧
    (levelComp (VoidPtr.data 10) (VoidPtr.data 11) = 0 ∧
      (priqueue_at (offer_all (priqueue_init levelComp) [10, 11]) 0).map Prod.fst
        = some (VoidPtr.data 11) ∧
      (priqueue_at (offer_all (priqueue_init levelComp) [10, 11]) 1).map Prod.fst
        = some (VoidPtr.data 10)) :=
  ⟨⟨levelComp_consistent, by simp [WellFormed], by simp [NonDecreasing, Leq, levelComp], rfl,
      by
        obtain ⟨before, after, h1, h2, _⟩ :=
          offer_tie_placement.1 ⟨[1, 10, 12, 20], 4, levelComp⟩ 11 levelComp_consistent
            (by simp [WellFormed]) (by simp [NonDecreasing, Leq, levelComp])
        exact ⟨before, after, h1, h2⟩⟩,
    ⟨by decide, offer_tie_placement.2 levelComp 10 11 (by decide)⟩⟩

/-! ## C3 -/

/-- C3 (insert placement): on a well-formed queue with chain `L`, for any comparer and any
`x`, `priqueue_offer` leaves the longest run of leading elements `e` with
`compare(e, x) < 0`, then `x`, then the rest of `L`; erasing the returned index gives `L`
back (nothing dropped, duplicated or reordered); and `x` goes to the tail when every element
is strictly less. -/
theorem offer_placement (q : priqueue_t) (x : Nat) (hw : WellFormed q) :
    (priqueue_offer q x).2.m_root
        = q.m_root.takeWhile (fun e => decide (q.m_comp (VoidPtr.data e) (VoidPtr.data x) < 0))
          ++ [x]
          ++ q.m_root.dropWhile
              (fun e => decide (q.m_comp (VoidPtr.data e) (VoidPtr.data x) < 0)) ∧
      (priqueue_offer q x).2.m_root.eraseIdx (priqueue_offer q x).1.toNat = q.m_root ∧
      ((∀ e ∈ q.m_root, q.m_comp (VoidPtr.data e) (VoidPtr.data x) < 0) →
        (priqueue_offer q x).2.m_root = q.m_root ++ [x]) := by
  have hless : (fun e => decide (q.m_comp (VoidPtr.data e) (VoidPtr.data x) < 0))
      = less q.m_comp x := rfl
  rw [hless, offer_eq q x (wellFormed_zero hw)]
  refine ⟨by simp, ?_, ?_⟩
  · simp only [Int.toNat_ofNat]
    rw [List.eraseIdx_append_of_length_le (le_refl _)]
    simp
  · intro hall
    have h1 : q.m_root.takeWhile (less q.m_comp x) = q.m_root :=
      List.takeWhile_eq_self_iff.mpr (fun e he => by simp [less, hall e he])
    have h2 : q.m_root.dropWhile (less q.m_comp x) = [] :=
      List.dropWhile_eq_nil_iff.mpr (fun e he => by simp [less, hall e he])
    simp [h1, h2]

theorem offer_placement_witness :
    WellFormed ⟨[1, 3, 5], 3, addrComp⟩ ∧
      (priqueue_offer ⟨[1, 3, 5], 3, addrComp⟩ 3).2.m_root = [1, 3, 3, 5] ∧
      (priqueue_offer ⟨[1, 3, 5], 3, addrComp⟩ 3).1 = 1 :=
  ⟨by simp [WellFormed],
    by
      have h := (offer_placement ⟨[1, 3, 5], 3, addrComp⟩ 3 (by simp [WellFormed])).1
      rw [h]; decide,
    by decide⟩

theorem take_of_split (a b l : List Nat) (h : a ++ b = l) : l.take a.length = a := by
  rw [← h]; simp

theorem drop_of_split (a b l : List Nat) (h : a ++ b = l) : l.drop a.length = b := by
  rw [← h]; simp

/-! ## C4 -/

/-- C4 (insert return value): on a well-formed queue the integer `i` returned by
`priqueue_offer` satisfies `0 ≤ i ≤` old size, the new chain is the old one with `x` stored
at position `i`, `priqueue_at i` called right afterwards returns `x`, and the new node is
the head exactly when `i = 0`: for `i = 0` the new chain is `x` followed by the old chain,
for `i ≠ 0` the old head is still the head. -/
theorem offer_index (q : priqueue_t) (x : Nat) (hw : WellFormed q) :
    0 ≤ (priqueue_offer q x).1 ∧ (priqueue_offer q x).1 ≤ q.m_size ∧
      (priqueue_offer q x).2.m_root
        = q.m_root.take (priqueue_offer q x).1.toNat ++ x ::
            q.m_root.drop (priqueue_offer q x).1.toNat ∧
      priqueue_at (priqueue_offer q x).2 (priqueue_offer q x).1
        = some (VoidPtr.data x, (priqueue_offer q x).2) ∧
      ((priqueue_offer q x).1 = 0 → (priqueue_offer q x).2.m_root = x :: q.m_root) ∧
      ((priqueue_offer q x).1 ≠ 0 →
        q.m_root ≠ [] ∧ (priqueue_offer q x).2.m_root.head? = q.m_root.head?) := by
  have hw2 := offer_wellFormed q x hw
  have hsplit := List.takeWhile_append_dropWhile (less q.m_comp x) q.m_root
  have hlen := congrArg List.length hsplit
  simp only [List.length_append] at hlen
  have htake : q.m_root.take (q.m_root.takeWhile (less q.m_comp x)).length
      = q.m_root.takeWhile (less q.m_comp x) :=
    take_of_split _ _ _ hsplit
  have hdrop : q.m_root.drop (q.m_root.takeWhile (less q.m_comp x)).length
      = q.m_root.dropWhile (less q.m_comp x) :=
    drop_of_split _ _ _ hsplit
  rw [offer_eq q x (wellFormed_zero hw)] at hw2 ⊢
  simp only [Int.toNat_ofNat]
  have hwf : q.m_size = (q.m_root.length : Int) := hw
  refine ⟨by omega, by omega, by rw [htake, hdrop], ?_, ?_, ?_⟩
  · apply at_in_range _ _ hw2 (by omega)
    · show ((q.m_root.takeWhile (less q.m_comp x)).length : Int) < q.m_size + 1
      omega
    · show (q.m_root.takeWhile (less q.m_comp x) ++ x ::
          q.m_root.dropWhile (less q.m_comp x))[(q.m_root.takeWhile
            (less q.m_comp x)).length]? = some x
      rw [List.getElem?_append_right (le_refl _)]
      simp
  · intro h0
    have hz : (q.m_root.takeWhile (less q.m_comp x)).length = 0 := by exact_mod_cast h0
    have hnil := List.length_eq_zero.mp hz
    rw [hnil] at hsplit
    rw [hnil]
    simpa using hsplit
  · intro hne
    have hz : (q.m_root.takeWhile (less q.m_comp x)).length ≠ 0 := by
      intro h; apply hne; exact_mod_cast h
    cases hroot : q.m_root with
    | nil => rw [hroot] at hz; simp at hz
    | cons a l =>
      rw [hroot] at hz
      refine ⟨by simp, ?_⟩
      by_cases ha : less q.m_comp x a = true
      · simp [List.takeWhile_cons, ha]
      · simp [List.takeWhile_cons, ha] at hz

theorem offer_index_witness :
    WellFormed ⟨[10, 20, 30], 3, addrComp⟩ ∧
      (priqueue_offer ⟨[10, 20, 30], 3, addrComp⟩ 25).1 = 2 ∧
      (priqueue_at (priqueue_offer ⟨[10, 20, 30], 3, addrComp⟩ 25).2 2).map Prod.fst
        = some (VoidPtr.data 25) :=
  ⟨by simp [WellFormed], by decide,
    by
      have h := (offer_index ⟨[10, 20, 30], 3, addrComp⟩ 25 (by simp [WellFormed])).2.2.2.1
      have h2 : (priqueue_offer ⟨[10, 20, 30], 3, addrComp⟩ 25).1 = 2 := by decide
      rw [h2] at h
      rw [h]; rfl⟩

/-! ## Removal lemmas -/

theorem remove_at_walk_eq : ∀ (k : Nat) (visited temp : List Nat), k ≤ temp.length →
    remove_at_walk k visited temp = some (visited ++ temp.take k, temp.drop k)
  | 0, visited, temp, _ => by simp [remove_at_walk]
  | k + 1, visited, [], h => by simp at h
  | k + 1, visited, p :: next, h => by
    simp only [remove_at_walk]
    rw [remove_at_walk_eq k (visited ++ [p]) next (by simpa using h)]
    simp

/-- What `priqueue_remove_at` does for an index below `m_size` on a well-formed queue: it
unlinks the node at position `unlinked index` and returns that node, or reads through
`NULL` when the chain has no such position. -/
theorem remove_at_eq (q : priqueue_t) (index : Int) (hw : WellFormed q)
    (hlt : index < q.m_size) :
    priqueue_remove_at q index =
      match q.m_root.drop (unlinked index) with
      | [] => none
      | t :: tnext =>
        some (VoidPtr.node t tnext,
          { q with m_root := q.m_root.take (unlinked index) ++ tnext, m_size := q.m_size - 1 }) := by
  unfold WellFormed at hw
  unfold priqueue_remove_at
  rw [if_neg (by omega)]
  cases hroot : q.m_root with
  | nil => simp
  | cons p next =>
    rw [hroot] at hw
    simp only [List.length_cons] at hw
    by_cases h0 : index = 0
    · simp [h0, unlinked]
    · have hk : index.toNat ≤ next.length := by omega
      simp only [h0, if_false, unlinked, List.drop_succ_cons, List.take_succ_cons]
      rw [remove_at_walk_eq _ _ _ hk]
      cases hd : next.drop index.toNat with
      | nil => simp
      | cons t tnext => simp

theorem remove_at_out_of_range (q : priqueue_t) (index : Int) (h : q.m_size ≤ index) :
    priqueue_remove_at q index = some (NULL, q) := by
  unfold priqueue_remove_at
  rw [if_pos h]

/-- A completed `priqueue_remove_at` below `m_size` unlinks exactly one node. -/
theorem remove_at_length (q : priqueue_t) (index : Int) (hw : WellFormed q)
    (hlt : index < q.m_size) (v : VoidPtr) (q1 : priqueue_t)
    (h : priqueue_remove_at q index = some (v, q1)) :
    q1.m_size = q.m_size - 1 ∧ q1.m_root.length + 1 = q.m_root.length ∧
      q1.m_comp = q.m_comp := by
  rw [remove_at_eq q index hw hlt] at h
  cases hd : q.m_root.drop (unlinked index) with
  | nil => rw [hd] at h; simp at h
  | cons t tnext =>
    rw [hd] at h
    simp only [Option.some.injEq, Prod.mk.injEq] at h
    obtain ⟨_, rfl⟩ := h
    refine ⟨rfl, ?_, rfl⟩
    have hl := congrArg List.length hd
    simp only [List.length_drop, List.length_cons] at hl
    simp only [List.length_append, List.length_take]
    omega

theorem remove_scan_spec (comp : VoidPtr → VoidPtr → Int) (ptr : Nat) :
    ∀ (cur kept : List Nat) (n s : Int), ∃ l : List Nat, l.Sublist cur ∧
      remove_scan comp ptr kept cur n s
        = (kept ++ l, n + ((cur.length : Int) - (l.length : Int)),
            s - ((cur.length : Int) - (l.length : Int)))
  | [], kept, n, s => ⟨[], List.Sublist.refl _, by simp [remove_scan]⟩
  | p :: next, kept, n, s => by
    by_cases h : comp (VoidPtr.data ptr) (VoidPtr.node p next) = 0
    · obtain ⟨l, hl, he⟩ := remove_scan_spec comp ptr next kept (n + 1) (s - 1)
      refine ⟨l, List.Sublist.cons p hl, ?_⟩
      simp only [remove_scan, h, if_true, he, List.length_cons, Prod.mk.injEq, true_and]
      push_cast
      constructor <;> ring
    · obtain ⟨l, hl, he⟩ := remove_scan_spec comp ptr next (kept ++ [p]) n s
      refine ⟨p :: l, List.Sublist.cons₂ p hl, ?_⟩
      simp only [remove_scan, h, if_false, he, List.length_cons, Prod.mk.injEq,
        List.append_assoc, List.singleton_append, true_and]
      push_cast
      constructor <;> ring

/-- On a well-formed queue `priqueue_remove` completes: it leaves a sublist of the chain,
returns the number of unlinked nodes, and lowers the count by as much. -/
theorem remove_body_spec (comp : VoidPtr → VoidPtr → Int) (ptr : Nat) :
    ∀ (l0 : List Nat) (s : Int), s = (l0.length : Int) → ∃ l : List Nat, l.Sublist l0 ∧
      remove_body comp ptr l0 s
        = some ((l0.length : Int) - (l.length : Int), l, (l.length : Int))
  | [], s, hs => ⟨[], List.Sublist.refl _, by simp [remove_body, hs]⟩
  | p :: next, s, hs => by
    simp only [List.length_cons] at hs
    have hs0 : s ≠ 0 := by push_cast at hs; omega
    by_cases h : comp (VoidPtr.data ptr) (VoidPtr.data p) = 0
    · obtain ⟨l, hl, he⟩ := remove_body_spec comp ptr next (s - 1) (by push_cast at hs; omega)
      refine ⟨l, List.Sublist.cons p hl, ?_⟩
      simp only [remove_body, hs0, if_false, h, if_true, he, List.length_cons]
      push_cast
      simp only [Option.some.injEq, Prod.mk.injEq, and_true]
      ring
    · obtain ⟨l, hl, he⟩ := remove_scan_spec comp ptr next [p] 0 s
      refine ⟨p :: l, List.Sublist.cons₂ p hl, ?_⟩
      simp only [remove_body, hs0, if_false, h, he, List.length_cons, List.singleton_append]
      push_cast
      simp only [Option.some.injEq, Prod.mk.injEq, true_and]
      constructor
      · ring
      · rw [hs]; push_cast; ring

theorem remove_spec (q : priqueue_t) (ptr : Nat) (hw : WellFormed q) :
    ∃ l : List Nat, l.Sublist q.m_root ∧
      priqueue_remove q ptr
        = some ((q.m_root.length : Int) - (l.length : Int),
            { q with m_root := l, m_size := (l.length : Int) }) := by
  obtain ⟨l, hl, he⟩ := remove_body_spec q.m_comp ptr q.m_root q.m_size hw
  exact ⟨l, hl, by simp [priqueue_remove, he]⟩

theorem destroy_loop_eq : ∀ (fuel : Nat) (q : priqueue_t), WellFormed q →
    q.m_root.length = fuel →
    destroy_loop fuel q = some { q with m_root := [], m_size := 0 }
  | 0, q, hw, hl => by
    unfold WellFormed at hw
    have hroot : q.m_root = [] := List.length_eq_zero.mp hl
    rw [hl] at hw
    cases q
    simp only at hroot hw
    simp [destroy_loop, hroot, hw]
  | fuel + 1, q, hw, hl => by
    unfold WellFormed at hw
    cases hroot : q.m_root with
    | nil => rw [hroot] at hl; simp at hl
    | cons p next =>
      rw [hroot] at hl hw
      simp only [List.length_cons] at hl hw
      have hpos : q.m_size > 0 := by omega
      have hne : ¬ q.m_size ≤ 0 := by omega
      simp only [destroy_loop, hpos, if_true, priqueue_remove_at, hne, if_false, hroot]
      rw [destroy_loop_eq fuel _ (by simp [WellFormed]; omega) (by simpa using hl)]

theorem destroy_eq (q : priqueue_t) (hw : WellFormed q) :
    priqueue_destroy q = some { q with m_root := [], m_size := 0 } := by
  unfold priqueue_destroy
  apply destroy_loop_eq _ _ hw
  unfold WellFormed at hw
  omega

theorem at_snd (q : priqueue_t) (index : Int) (r : VoidPtr × priqueue_t)
    (h : priqueue_at q index = some r) : r.2 = q := by
  unfold priqueue_at at h
  split at h
  · simp at h; rw [← h]
  · split at h
    · simp at h; rw [← h]
    · simp at h

theorem peek_snd (q : priqueue_t) : (priqueue_peek q).2 = q := by
  unfold priqueue_peek
  split <;> rfl

theorem poll_nonempty (q : priqueue_t) (hw : WellFormed q) (p : Nat) (next : List Nat)
    (hroot : q.m_root = p :: next) :
    priqueue_poll q
      = some (VoidPtr.data p, { q with m_root := next, m_size := q.m_size - 1 }) := by
  unfold WellFormed at hw
  rw [hroot] at hw
  simp only [List.length_cons] at hw
  unfold priqueue_poll
  rw [if_neg (by omega), hroot]

theorem poll_empty (q : priqueue_t) (h : q.m_size = 0) : priqueue_poll q = some (NULL, q) := by
  unfold priqueue_poll
  rw [if_pos h]

theorem poll_wellFormed (q : priqueue_t) (hw : WellFormed q) (r : VoidPtr × priqueue_t)
    (h : priqueue_poll q = some r) : WellFormed r.2 := by
  cases hroot : q.m_root with
  | nil =>
    have h0 : q.m_size = 0 := by unfold WellFormed at hw; rw [hroot] at hw; simpa using hw
    rw [poll_empty q h0] at h
    simp at h; rw [← h]; exact hw
  | cons p next =>
    rw [poll_nonempty q hw p next hroot] at h
    simp at h; rw [← h]
    unfold WellFormed at hw ⊢
    rw [hroot] at hw
    simp only [List.length_cons] at hw
    simp only
    omega

theorem step_wellFormed (q q1 : priqueue_t) (c : Call) (hw : WellFormed q)
    (h : step q c = some q1) : WellFormed q1 := by
  cases c with
  | offer ptr =>
    simp only [step, Option.some.injEq] at h
    rw [← h]; exact offer_wellFormed q ptr hw
  | peek =>
    simp only [step, Option.some.injEq] at h
    rw [← h, peek_snd]; exact hw
  | poll =>
    simp only [step, Option.map_eq_some'] at h
    obtain ⟨r, hr, rfl⟩ := h
    exact poll_wellFormed q hw r hr
  | at_ index =>
    simp only [step, Option.map_eq_some'] at h
    obtain ⟨r, hr, rfl⟩ := h
    rw [at_snd q index r hr]; exact hw
  | remove ptr =>
    simp only [step, Option.map_eq_some'] at h
    obtain ⟨r, hr, rfl⟩ := h
    obtain ⟨l, _, he⟩ := remove_spec q ptr hw
    rw [he] at hr
    simp at hr; rw [← hr]
    simp [WellFormed]
  | remove_at index =>
    simp only [step, Option.map_eq_some'] at h
    obtain ⟨r, hr, rfl⟩ := h
    by_cases hi : q.m_size ≤ index
    · rw [remove_at_out_of_range q index hi] at hr
      simp at hr; rw [← hr]; exact hw
    · obtain ⟨h1, h2, _⟩ := remove_at_length q index hw (by omega) r.1 r.2 hr
      unfold WellFormed at hw ⊢
      omega
  | destroy =>
    simp only [step] at h
    rw [destroy_eq q hw] at h
    simp at h; rw [← h]
    simp [WellFormed]

theorem run_wellFormed : ∀ (calls : List Call) (q q1 : priqueue_t), WellFormed q →
    run q calls = some q1 → WellFormed q1
  | [], q, q1, hw, h => by
    simp only [run, Option.some.injEq] at h
    rw [← h]; exact hw
  | c :: cs, q, q1, hw, h => by
    simp only [run] at h
    cases hs : step q c with
    | none => rw [hs] at h; simp at h
    | some q2 =>
      rw [hs] at h
      exact run_wellFormed cs q2 q1 (step_wellFormed q q2 c hw hs) h

/-! ## C5 -/

/-- C5 (size consistency, I3/P3): in every state reached from `priqueue_init` by a sequence
of completed calls of `priqueue_offer`, `priqueue_peek`, `priqueue_poll`, `priqueue_at`,
`priqueue_remove`, `priqueue_remove_at` and `priqueue_destroy`, `m_size` is the number of
nodes of the chain and is zero exactly when there is no root; from such a state an offer
raises size and chain length by one, a poll of a non-empty queue and a completed
`priqueue_remove_at` below `m_size` lower both by one, `priqueue_remove` lowers both by the
number of nodes it unlinks, and `priqueue_destroy` brings both to zero. -/
theorem size_consistent (comp : VoidPtr → VoidPtr → Int) (calls : List Call) (q : priqueue_t)
    (hr : run (priqueue_init comp) calls = some q) :
    q.m_size = (q.m_root.length : Int) ∧ (q.m_size = 0 ↔ q.m_root = []) ∧
      (∀ x : Nat, (priqueue_offer q x).2.m_size = q.m_size + 1 ∧
        (priqueue_offer q x).2.m_root.length = q.m_root.length + 1) ∧
      (q.m_root ≠ [] → ∃ v q1, priqueue_poll q = some (v, q1) ∧
        q1.m_size = q.m_size - 1 ∧ q1.m_root.length + 1 = q.m_root.length) ∧
      (∀ (index : Int) (v : VoidPtr) (q1 : priqueue_t), index < q.m_size →
        priqueue_remove_at q index = some (v, q1) →
        q1.m_size = q.m_size - 1 ∧ q1.m_root.length + 1 = q.m_root.length) ∧
      (∀ ptr : Nat, ∃ n q1, priqueue_remove q ptr = some (n, q1) ∧ 0 ≤ n ∧
        q1.m_size = q.m_size - n ∧
        (q1.m_root.length : Int) = (q.m_root.length : Int) - n) ∧
      (∃ q1, priqueue_destroy q = some q1 ∧ q1.m_size = 0 ∧ q1.m_root = []) := by
  have hw : WellFormed q :=
    run_wellFormed calls (priqueue_init comp) q (by simp [WellFormed, priqueue_init]) hr
  have hsz : q.m_size = (q.m_root.length : Int) := hw
  refine ⟨hsz, ?_, ?_, ?_, ?_, ?_, ?_⟩
  · constructor
    · exact wellFormed_zero hw
    · intro h; rw [hsz, h]; rfl
  · intro x
    have h2 : WellFormed (priqueue_offer q x).2 := offer_wellFormed q x hw
    have h1 : (priqueue_offer q x).2.m_size = q.m_size + 1 := by
      rw [offer_eq q x (wellFormed_zero hw)]
    unfold WellFormed at h2
    refine ⟨h1, ?_⟩
    omega
  · intro hne
    cases hroot : q.m_root with
    | nil => exact absurd hroot hne
    | cons p next =>
      exact ⟨_, _, poll_nonempty q hw p next hroot, rfl, by simp⟩
  · intro index v q1 hlt h
    have := remove_at_length q index hw hlt v q1 h
    exact ⟨this.1, this.2.1⟩
  · intro ptr
    obtain ⟨l, hl, he⟩ := remove_spec q ptr hw
    have hle := hl.length_le
    refine ⟨_, _, he, ?_, ?_, ?_⟩
    · omega
    · simp only; omega
    · simp only; omega
  · exact ⟨_, destroy_eq q hw, rfl, rfl⟩

theorem size_consistent_witness :
    run (priqueue_init addrComp)
        [Call.offer 5, Call.offer 3, Call.offer 7, Call.poll, Call.remove 5]
      = some ⟨[7], 1, addrComp⟩ ∧
    (1 : Int) = (([7] : List Nat).length : Int) :=
  ⟨rfl, (size_consistent addrComp
    [Call.offer 5, Call.offer 3, Call.offer 7, Call.poll, Call.remove 5]
    ⟨[7], 1, addrComp⟩ rfl).1⟩

/-! ## C6 -/

/-- C6 (peek/poll agreement, P4): on a non-empty well-formed queue `priqueue_peek` leaves
the queue unchanged and returns the head element; `priqueue_poll` then returns the same
element and lowers `priqueue_size` by one; and `priqueue_peek` on the new queue returns what
`priqueue_at 1` returned before the poll, which is `NULL` when the size was 1. -/
theorem peek_poll_agree (q : priqueue_t) (hw : WellFormed q) (hne : 0 < priqueue_size q) :
    (priqueue_peek q).2 = q ∧
      ∃ (e : Nat) (q1 : priqueue_t),
        q.m_root.head? = some e ∧
        (priqueue_peek q).1 = VoidPtr.data e ∧
        priqueue_poll q = some (VoidPtr.data e, q1) ∧
        priqueue_size q1 = priqueue_size q - 1 ∧
        priqueue_at q 1 = some ((priqueue_peek q1).1, q) ∧
        (priqueue_size q = 1 → (priqueue_peek q1).1 = NULL) := by
  refine ⟨peek_snd q, ?_⟩
  unfold priqueue_size at hne ⊢
  have hsz : q.m_size = (q.m_root.length : Int) := hw
  cases hroot : q.m_root with
  | nil => rw [hroot] at hsz; simp at hsz; omega
  | cons e next =>
    rw [hroot] at hsz
    simp only [List.length_cons] at hsz
    refine ⟨e, _, rfl, by simp [priqueue_peek, hroot], poll_nonempty q hw e next hroot, rfl,
      ?_, ?_⟩
    · cases hnext : next with
      | nil =>
        rw [hnext] at hsz
        have h1 : (1 : Int) ≥ q.m_size := by simp at hsz; omega
        simp [priqueue_at, h1, priqueue_peek]
      | cons b rest =>
        rw [hnext] at hsz
        simp only [List.length_cons] at hsz
        rw [at_in_range q 1 hw (by omega) (by push_cast at hsz; omega) b
          (by simp [hroot, hnext])]
        simp [priqueue_peek]
    · intro h1
      have : next = [] := by
        apply List.length_eq_zero.mp
        omega
      simp [priqueue_peek, this]

theorem peek_poll_agree_witness :
    WellFormed ⟨[3, 5, 7], 3, addrComp⟩ ∧ 0 < priqueue_size ⟨[3, 5, 7], 3, addrComp⟩ ∧
      (priqueue_peek ⟨[3, 5, 7], 3, addrComp⟩).1 = VoidPtr.data 3 ∧
      (priqueue_peek ⟨[3, 5, 7], 3, addrComp⟩).2.m_root = [3, 5, 7] :=
  ⟨by simp [WellFormed], by decide, by decide,
    congrArg priqueue_t.m_root
      (peek_poll_agree ⟨[3, 5, 7], 3, addrComp⟩ (by simp [WellFormed]) (by decide)).1⟩

/-! ## C7 -/

/-- C7 (`priqueue_remove_at` returns the stored element), evaluated on the code: on the
one-element queue holding element 7, `priqueue_at 0` returns the element 7 while
`priqueue_remove_at 0` returns the address of the unlinked node; on the chain `1, 2, 3`,
`priqueue_at 1` returns element 2 while `priqueue_remove_at 1` returns the node that held
element 3. -/
theorem remove_at_returns_node :
    (priqueue_at ⟨[7], 1, addrComp⟩ 0).map Prod.fst = some (VoidPtr.data 7) ∧
      (priqueue_remove_at ⟨[7], 1, addrComp⟩ 0).map Prod.fst = some (VoidPtr.node 7 []) ∧
      (priqueue_at ⟨[1, 2, 3], 3, addrComp⟩ 1).map Prod.fst = some (VoidPtr.data 2) ∧
      (priqueue_remove_at ⟨[1, 2, 3], 3, addrComp⟩ 1).map Prod.fst
        = some (VoidPtr.node 3 []) :=
  ⟨rfl, rfl, rfl, rfl⟩

/-! ## C8 -/

/-- C8 (`priqueue_remove_at` removes exactly position `i`), evaluated on the code: on the
chain `1, 2, 3`, `priqueue_remove_at 1` leaves `1, 2` (position 2 is unlinked) where erasing
position 1 gives `1, 3`; and on the chain `1, 2` the call `priqueue_remove_at 1` reads the
`next` field of a `NULL` node. -/
theorem remove_at_unlinks_successor :
    (priqueue_remove_at ⟨[1, 2, 3], 3, addrComp⟩ 1).map (fun r => (r.2.m_root, r.2.m_size))
        = some ([1, 2], 2) ∧
      ([1, 2, 3] : List Nat).eraseIdx 1 = [1, 3] ∧
      (priqueue_remove_at ⟨[1, 2], 2, addrComp⟩ 1).isNone = true :=
  ⟨rfl, rfl, rfl⟩

/-! ## C9 -/

/-- C9 (`priqueue_remove` matches by identity, not by the comparer), evaluated on the code:
with a comparer for which the distinct references 10 and 11 compare zero, removing 11 from
the one-element queue holding 10 unlinks 10 and returns 1, where filtering out the
references equal to 11 leaves 10 in place. -/
theorem remove_matches_by_comparer :
    levelComp (VoidPtr.data 11) (VoidPtr.data 10) = 0 ∧
      (priqueue_remove ⟨[10], 1, levelComp⟩ 11).map (fun r => (r.1, r.2.m_root, r.2.m_size))
        = some (1, [], 0) ∧
      ([10] : List Nat).filter (fun e => decide (e ≠ 11)) = [10] :=
  ⟨rfl, rfl, rfl⟩

/-! ## C10 -/

/-- C10 (return count of `priqueue_remove`): on a well-formed queue `priqueue_remove`
completes, the chain it leaves is a sublist of the old chain, and the integer it returns is
the number of nodes unlinked, which is `priqueue_size` before the call minus
`priqueue_size` after it; on an empty queue it returns 0 and leaves the queue as it was. -/
theorem remove_count (q : priqueue_t) (ptr : Nat) (hw : WellFormed q) :
    ∃ (n : Int) (q1 : priqueue_t), priqueue_remove q ptr = some (n, q1) ∧
      q1.m_root.Sublist q.m_root ∧
      n = (q.m_root.length : Int) - (q1.m_root.length : Int) ∧
      n = priqueue_size q - priqueue_size q1 ∧
      (priqueue_size q = 0 → n = 0 ∧ q1 = q) := by
  obtain ⟨l, hl, he⟩ := remove_spec q ptr hw
  have hsz : q.m_size = (q.m_root.length : Int) := hw
  refine ⟨_, _, he, hl, rfl, ?_, ?_⟩
  · simp only [priqueue_size]; omega
  · intro h0
    unfold priqueue_size at h0
    have hroot := wellFormed_zero hw h0
    rw [hroot] at hl
    have hlnil : l = [] := List.eq_nil_of_sublist_nil hl
    subst hlnil
    cases q
    simp only at hroot h0
    simp [hroot, h0]

theorem remove_count_witness :
    WellFormed ⟨[10, 11, 20], 3, levelComp⟩ ∧
      (priqueue_remove ⟨[10, 11, 20], 3, levelComp⟩ 12).map
          (fun r => (r.1, r.2.m_root, r.2.m_size)) = some (2, [20], 1) ∧
      ∃ (n : Int) (q1 : priqueue_t),
        priqueue_remove ⟨[10, 11, 20], 3, levelComp⟩ 12 = some (n, q1) ∧
          n = priqueue_size ⟨[10, 11, 20], 3, levelComp⟩ - priqueue_size q1 :=
  ⟨by simp [WellFormed], rfl,
    by
      obtain ⟨n, q1, h1, _, _, h4, _⟩ :=
        remove_count ⟨[10, 11, 20], 3, levelComp⟩ 12 (by simp [WellFormed])
      exact ⟨n, q1, h1, h4⟩⟩

/-! ## C11 -/

/-- C11 (`priqueue_at` in range): on a well-formed queue with chain `L`, for every index
`i` with `0 ≤ i < size`, `priqueue_at i` completes, returns the `i`-th element of `L` in
head-to-tail order, and hands back the queue as it was (same chain, same size). -/
theorem at_returns_element (q : priqueue_t) (index : Int) (hw : WellFormed q)
    (h0 : 0 ≤ index) (h1 : index < priqueue_size q) :
    ∃ e : Nat, q.m_root[index.toNat]? = some e ∧
      priqueue_at q index = some (VoidPtr.data e, q) := by
  unfold priqueue_size at h1
  have hsz : q.m_size = (q.m_root.length : Int) := hw
  have hlt : index.toNat < q.m_root.length := by omega
  exact ⟨q.m_root[index.toNat], List.getElem?_eq_getElem hlt,
    at_in_range q index hw h0 h1 _ (List.getElem?_eq_getElem hlt)⟩

theorem at_returns_element_witness :
    WellFormed ⟨[3, 5, 7], 3, addrComp⟩ ∧
      (priqueue_at ⟨[3, 5, 7], 3, addrComp⟩ 2).map Prod.fst = some (VoidPtr.data 7) ∧
      ∃ e : Nat, ([3, 5, 7] : List Nat)[(2 : Int).toNat]? = some e ∧
        priqueue_at ⟨[3, 5, 7], 3, addrComp⟩ 2 = some (VoidPtr.data e, ⟨[3, 5, 7], 3, addrComp⟩) :=
  ⟨by simp [WellFormed], rfl,
    at_returns_element ⟨[3, 5, 7], 3, addrComp⟩ 2 (by simp [WellFormed]) (by decide)
      (by decide)⟩

/-! ## C12 -/

/-- C12 (`priqueue_at` out of range), evaluated on the code: on the one-element queue
holding element 7, `priqueue_at (-1)` returns the element 7, which is not `NULL`; on the
empty queue `priqueue_at (-1)` reads the `pointer` field of a `NULL` node; an index at or
above the size does give `NULL`. -/
theorem at_negative_index :
    (priqueue_at ⟨[7], 1, addrComp⟩ (-1)).map Prod.fst = some (VoidPtr.data 7) ∧
      VoidPtr.data 7 ≠ NULL ∧
      (priqueue_at ⟨[], 0, addrComp⟩ (-1)).isNone = true ∧
      (priqueue_at ⟨[7], 1, addrComp⟩ 1).map Prod.fst = some NULL :=
  ⟨rfl, by decide, rfl, rfl⟩

/-! ## C13 -/

/-- C13 (empty semantics), evaluated on the code: on the freshly initialised queue
`priqueue_peek`, `priqueue_poll` and `priqueue_at 0` return `NULL` with the chain still
empty, while `priqueue_at (-1)` reads the `pointer` field of a `NULL` node. -/
theorem empty_queue_at_faults :
    (priqueue_peek (priqueue_init addrComp)).1 = NULL ∧
      (priqueue_poll (priqueue_init addrComp)).map (fun r => (r.1, r.2.m_root, r.2.m_size))
        = some (NULL, [], 0) ∧
      (priqueue_at (priqueue_init addrComp) 0).map (fun r => (r.1, r.2.m_root, r.2.m_size))
        = some (NULL, [], 0) ∧
      (priqueue_at (priqueue_init addrComp) (-1)).isNone = true :=
  ⟨rfl, rfl, rfl, rfl⟩

/-! ## C14 -/

/-- C14 (`priqueue_remove_at` out of range): on a well-formed queue, for every index with
`index ≥ size` (on an empty queue: every index `≥ 0`), `priqueue_remove_at` completes,
returns `NULL` and hands back the queue as it was: root, chain and `m_size` unchanged. -/
theorem remove_at_noop (q : priqueue_t) (index : Int) (hw : WellFormed q)
    (h : priqueue_size q ≤ index) :
    priqueue_remove_at q index = some (NULL, q) ∧
      (q.m_root = [] → ∀ i : Int, 0 ≤ i → priqueue_remove_at q i = some (NULL, q)) := by
  unfold priqueue_size at h
  have hsz : q.m_size = (q.m_root.length : Int) := hw
  refine ⟨by unfold priqueue_remove_at; rw [if_pos h], ?_⟩
  intro hroot i hi
  rw [hroot] at hsz
  have hle : q.m_size ≤ i := by simp at hsz; omega
  unfold priqueue_remove_at
  rw [if_pos hle]

theorem remove_at_noop_witness :
    WellFormed ⟨[3, 5], 2, addrComp⟩ ∧ priqueue_size ⟨[3, 5], 2, addrComp⟩ ≤ 2 ∧
      (priqueue_remove_at ⟨[3, 5], 2, addrComp⟩ 2).map (fun r => (r.1, r.2.m_root, r.2.m_size))
        = some (NULL, [3, 5], 2) :=
  ⟨by simp [WellFormed], by decide,
    by rw [(remove_at_noop ⟨[3, 5], 2, addrComp⟩ 2 (by simp [WellFormed]) (by decide)).1]; rfl⟩

/-! ## C15 -/

/-- C15 (destroy, P7): on a well-formed queue `priqueue_destroy` completes and leaves the
initial empty state: `priqueue_size` is 0, there is no root, `priqueue_peek` returns `NULL`,
and the comparer is the one the queue had; applying `priqueue_destroy` again leaves that
state unchanged. -/
theorem destroy_resets (q : priqueue_t) (hw : WellFormed q) :
    ∃ q1 : priqueue_t, priqueue_destroy q = some q1 ∧
      priqueue_size q1 = 0 ∧ q1.m_root = [] ∧ (priqueue_peek q1).1 = NULL ∧
      q1.m_comp = q.m_comp ∧ q1 = priqueue_init q.m_comp ∧
      priqueue_destroy q1 = some q1 :=
  ⟨{ q with m_root := [], m_size := 0 }, destroy_eq q hw, rfl, rfl, rfl, rfl, rfl, rfl⟩

theorem destroy_resets_witness :
    WellFormed ⟨[3, 5, 7], 3, addrComp⟩ ∧
      (priqueue_destroy ⟨[3, 5, 7], 3, addrComp⟩).map (fun r => (r.m_root, r.m_size))
        = some ([], 0) ∧
      ∃ q1 : priqueue_t, priqueue_destroy ⟨[3, 5, 7], 3, addrComp⟩ = some q1 ∧
        priqueue_destroy q1 = some q1 :=
  ⟨by simp [WellFormed], rfl,
    by
      obtain ⟨q1, h1, _, _, _, _, _, h7⟩ :=
        destroy_resets ⟨[3, 5, 7], 3, addrComp⟩ (by simp [WellFormed])
      exact ⟨q1, h1, h7⟩⟩

/-! ## C16 -/

/-- C16 (spec scenario), refuted as stated: with priority `address / 10`, offering the
elements 50 (priority 5), 30 (priority 3), 51 (priority 5) and 10 (priority 1) in that order
does not give `priqueue_at 0 = 10`, `priqueue_at 1 = 51`, `priqueue_at 2 = 50`,
`priqueue_at 3 = 30`. -/
theorem scenario_claimed_order_fails :
    ¬ ((priqueue_at (offer_all (priqueue_init levelComp) [50, 30, 51, 10]) 0).map Prod.fst
          = some (VoidPtr.data 10) ∧
        (priqueue_at (offer_all (priqueue_init levelComp) [50, 30, 51, 10]) 1).map Prod.fst
          = some (VoidPtr.data 51) ∧
        (priqueue_at (offer_all (priqueue_init levelComp) [50, 30, 51, 10]) 2).map Prod.fst
          = some (VoidPtr.data 50) ∧
        (priqueue_at (offer_all (priqueue_init levelComp) [50, 30, 51, 10]) 3).map Prod.fst
          = some (VoidPtr.data 30)) := by
  intro h
  have h1 : (priqueue_at (offer_all (priqueue_init levelComp) [50, 30, 51, 10]) 1).map Prod.fst
      = some (VoidPtr.data 30) := rfl
  rw [h1] at h
  exact absurd h.2.1 (by decide)

/-- C16 (spec scenario), amended: with an ascending-integer-priority comparer, offering
elements of priority 5, 3, 5, 1 in that order into an empty queue gives the head-to-tail
sequence 1, 3, 5 (the one inserted third), 5 (the one inserted first): `priqueue_at 0` is
the 1, `priqueue_at 1` the 3, `priqueue_at 2` the 5 inserted third, `priqueue_at 3` the 5
inserted first. -/
theorem scenario_order (comp : VoidPtr → VoidPtr → Int) (prio : Nat → Int)
    (hcomp : ∀ a b : Nat, comp (VoidPtr.data a) (VoidPtr.data b) = prio a - prio b)
    (e1 e2 e3 e4 : Nat) (h1 : prio e1 = 5) (h2 : prio e2 = 3) (h3 : prio e3 = 5)
    (h4 : prio e4 = 1) :
    (offer_all (priqueue_init comp) [e1, e2, e3, e4]).m_root = [e4, e2, e3, e1] ∧
      (priqueue_at (offer_all (priqueue_init comp) [e1, e2, e3, e4]) 0).map Prod.fst
        = some (VoidPtr.data e4) ∧
      (priqueue_at (offer_all (priqueue_init comp) [e1, e2, e3, e4]) 1).map Prod.fst
        = some (VoidPtr.data e2) ∧
      (priqueue_at (offer_all (priqueue_init comp) [e1, e2, e3, e4]) 2).map Prod.fst
        = some (VoidPtr.data e3) ∧
      (priqueue_at (offer_all (priqueue_init comp) [e1, e2, e3, e4]) 3).map Prod.fst
        = some (VoidPtr.data e1) := by
  have hroot : (offer_all (priqueue_init comp) [e1, e2, e3, e4]).m_root = [e4, e2, e3, e1] := by
    simp [offer_all, priqueue_init, priqueue_offer, offer_scan, hcomp, h1, h2, h3, h4]
  have hsize : (offer_all (priqueue_init comp) [e1, e2, e3, e4]).m_size = 4 := by
    simp [offer_all, priqueue_init, priqueue_offer, offer_scan, hcomp, h1, h2, h3, h4]
  have hw : WellFormed (offer_all (priqueue_init comp) [e1, e2, e3, e4]) := by
    simp [WellFormed, hroot, hsize]
  refine ⟨hroot, ?_, ?_, ?_, ?_⟩
  · rw [at_in_range _ 0 hw (by omega) (by omega) e4 (by simp [hroot])]; rfl
  · rw [at_in_range _ 1 hw (by omega) (by omega) e2 (by simp [hroot])]; rfl
  · rw [at_in_range _ 2 hw (by omega) (by omega) e3 (by simp [hroot])]; rfl
  · rw [at_in_range _ 3 hw (by omega) (by omega) e1 (by simp [hroot])]; rfl

theorem scenario_order_witness :
    (∀ a b : Nat, levelComp (VoidPtr.data a) (VoidPtr.data b)
        = (((a / 10 : Nat) : Int)) - (((b / 10 : Nat) : Int))) ∧
      (offer_all (priqueue_init levelComp) [50, 30, 51, 10]).m_root = [10, 30, 51, 50] ∧
      (priqueue_at (offer_all (priqueue_init levelComp) [50, 30, 51, 10]) 1).map Prod.fst
        = some (VoidPtr.data 30) :=
  ⟨fun _ _ => rfl,
    (scenario_order levelComp (fun a => ((a / 10 : Nat) : Int)) (fun _ _ => rfl)
      50 30 51 10 (by decide) (by decide) (by decide) (by decide)).1,
    (scenario_order levelComp (fun a => ((a / 10 : Nat) : Int)) (fun _ _ => rfl)
      50 30 51 10 (by decide) (by decide) (by decide) (by decide)).2.2.1⟩

/-! ## Order under removals -/

theorem sublist_nonDecreasing {comp : VoidPtr → VoidPtr → Int} (h : Consistent comp)
    {l l1 : List Nat} (hl : NonDecreasing comp l) (hsub : l1.Sublist l) :
    NonDecreasing comp l1 := by
  haveI : IsTrans Nat (Leq comp) := ⟨fun a b c => h.trans a b c⟩
  exact List.Chain'.sublist hl hsub

/-- A completed `priqueue_remove_at` leaves a sublist of the chain and keeps the comparer. -/
theorem remove_at_sublist (q : priqueue_t) (index : Int) (hw : WellFormed q)
    (v : VoidPtr) (q1 : priqueue_t) (h : priqueue_remove_at q index = some (v, q1)) :
    q1.m_root.Sublist q.m_root ∧ q1.m_comp = q.m_comp := by
  by_cases hi : q.m_size ≤ index
  · rw [remove_at_out_of_range q index hi] at h
    simp only [Option.some.injEq, Prod.mk.injEq] at h
    rw [← h.2]
    exact ⟨List.Sublist.refl _, rfl⟩
  · rw [remove_at_eq q index hw (by omega)] at h
    cases hd : q.m_root.drop (unlinked index) with
    | nil => rw [hd] at h; simp at h
    | cons t tnext =>
      rw [hd] at h
      simp only [Option.some.injEq, Prod.mk.injEq] at h
      rw [← h.2]
      refine ⟨?_, rfl⟩
      have hsplit := List.take_append_drop (unlinked index) q.m_root
      rw [hd] at hsplit
      show (q.m_root.take (unlinked index) ++ tnext).Sublist q.m_root
      conv_rhs => rw [← hsplit]
      exact List.Sublist.append_left (List.sublist_cons_self t tnext) _

/-- Below `m_size`, `priqueue_remove_at` completes whenever the position it unlinks is in
the chain: for index 0, and for a positive index with `index + 1 < m_size`. -/
theorem remove_at_completes (q : priqueue_t) (index : Int) (hw : WellFormed q)
    (h0 : 0 ≤ index) (h1 : (index = 0 ∧ 0 < q.m_size) ∨ index + 1 < q.m_size) :
    ∃ v q1, priqueue_remove_at q index = some (v, q1) := by
  have hsz : q.m_size = (q.m_root.length : Int) := hw
  have hu : unlinked index < q.m_root.length := by
    unfold unlinked
    split <;> omega
  rw [remove_at_eq q index hw (by omega)]
  cases hd : q.m_root.drop (unlinked index) with
  | nil =>
    have := congrArg List.length hd
    simp only [List.length_drop, List.length_nil] at this
    omega
  | cons t tnext => exact ⟨_, _, rfl⟩

theorem step_comp (q q1 : priqueue_t) (c : Call) (hw : WellFormed q)
    (h : step q c = some q1) : q1.m_comp = q.m_comp := by
  cases c with
  | offer ptr =>
    simp only [step, Option.some.injEq] at h
    rw [← h]; exact offer_comp q ptr
  | peek =>
    simp only [step, Option.some.injEq] at h
    rw [← h, peek_snd]
  | poll =>
    simp only [step, Option.map_eq_some'] at h
    obtain ⟨r, hr, rfl⟩ := h
    unfold priqueue_poll at hr
    split at hr
    · simp at hr; rw [← hr]
    · split at hr
      · simp at hr
      · simp at hr; rw [← hr]
  | at_ index =>
    simp only [step, Option.map_eq_some'] at h
    obtain ⟨r, hr, rfl⟩ := h
    rw [at_snd q index r hr]
  | remove ptr =>
    simp only [step, Option.map_eq_some'] at h
    obtain ⟨r, hr, rfl⟩ := h
    obtain ⟨l, _, he⟩ := remove_spec q ptr hw
    rw [he] at hr
    simp at hr; rw [← hr]
  | remove_at index =>
    simp only [step, Option.map_eq_some'] at h
    obtain ⟨r, hr, rfl⟩ := h
    exact (remove_at_sublist q index hw r.1 r.2 hr).2
  | destroy =>
    simp only [step] at h
    rw [destroy_eq q hw] at h
    simp at h; rw [← h]

theorem step_nonDecreasing (q q1 : priqueue_t) (c : Call) (hc : Consistent q.m_comp)
    (hw : WellFormed q) (hs : NonDecreasing q.m_comp q.m_root) (h : step q c = some q1) :
    NonDecreasing q.m_comp q1.m_root := by
  cases c with
  | offer ptr =>
    simp only [step, Option.some.injEq] at h
    rw [← h]; exact offer_nonDecreasing q ptr hc hw hs
  | peek =>
    simp only [step, Option.some.injEq] at h
    rw [← h, peek_snd]; exact hs
  | poll =>
    simp only [step, Option.map_eq_some'] at h
    obtain ⟨r, hr, rfl⟩ := h
    cases hroot : q.m_root with
    | nil =>
      have h0 : q.m_size = 0 := by unfold WellFormed at hw; rw [hroot] at hw; simpa using hw
      rw [poll_empty q h0] at hr
      simp at hr; rw [← hr, hroot]
      simp [NonDecreasing]
    | cons p next =>
      rw [poll_nonempty q hw p next hroot] at hr
      simp at hr; rw [← hr]
      rw [hroot] at hs
      exact List.Chain'.tail hs
  | at_ index =>
    simp only [step, Option.map_eq_some'] at h
    obtain ⟨r, hr, rfl⟩ := h
    rw [at_snd q index r hr]; exact hs
  | remove ptr =>
    simp only [step, Option.map_eq_some'] at h
    obtain ⟨r, hr, rfl⟩ := h
    obtain ⟨l, hl, he⟩ := remove_spec q ptr hw
    rw [he] at hr
    simp at hr; rw [← hr]
    exact sublist_nonDecreasing hc hs hl
  | remove_at index =>
    simp only [step, Option.map_eq_some'] at h
    obtain ⟨r, hr, rfl⟩ := h
    exact sublist_nonDecreasing hc hs (remove_at_sublist q index hw r.1 r.2 hr).1
  | destroy =>
    simp only [step] at h
    rw [destroy_eq q hw] at h
    simp at h; rw [← h]
    simp [NonDecreasing]

theorem run_nonDecreasing : ∀ (calls : List Call) (q q1 : priqueue_t), Consistent q.m_comp →
    WellFormed q → NonDecreasing q.m_comp q.m_root → run q calls = some q1 →
    NonDecreasing q.m_comp q1.m_root
  | [], q, q1, _, _, hs, h => by
    simp only [run, Option.some.injEq] at h
    rw [← h]; exact hs
  | c :: cs, q, q1, hc, hw, hs, h => by
    simp only [run] at h
    cases hstep : step q c with
    | none => rw [hstep] at h; simp at h
    | some q2 =>
      rw [hstep] at h
      have hcomp := step_comp q q2 c hw hstep
      have := run_nonDecreasing cs q2 q1 (hcomp ▸ hc) (step_wellFormed q q2 c hw hstep)
        (hcomp ▸ step_nonDecreasing q q2 c hc hw hs hstep) h
      rw [hcomp] at this
      exact this

/-! ## C17 -/

/-- C17 (removals keep the order invariant): for a consistent comparer and a well-formed
queue whose chain is non-decreasing, `priqueue_poll`, `priqueue_remove` and
`priqueue_destroy` complete and leave a non-decreasing chain; every completed
`priqueue_remove_at` leaves a non-decreasing chain, and the call completes for index 0 of a
non-empty queue and for every index with `index + 1 < size`; hence every state reached from
`priqueue_init` by completed inserts and removals has every adjacent pair in order. -/
theorem removals_keep_order (comp : VoidPtr → VoidPtr → Int) (hc : Consistent comp) :
    (∀ q : priqueue_t, q.m_comp = comp → WellFormed q → NonDecreasing comp q.m_root →
      (∃ v q1, priqueue_poll q = some (v, q1) ∧ NonDecreasing comp q1.m_root) ∧
      (∀ (index : Int) (v : VoidPtr) (q1 : priqueue_t),
        priqueue_remove_at q index = some (v, q1) → NonDecreasing comp q1.m_root) ∧
      (∀ index : Int, 0 ≤ index → (index = 0 ∧ 0 < q.m_size) ∨ index + 1 < q.m_size →
        ∃ v q1, priqueue_remove_at q index = some (v, q1)) ∧
      (∀ ptr : Nat, ∃ n q1, priqueue_remove q ptr = some (n, q1) ∧
        NonDecreasing comp q1.m_root) ∧
      (∃ q1, priqueue_destroy q = some q1 ∧ NonDecreasing comp q1.m_root)) ∧
    (∀ (calls : List Call) (q : priqueue_t), run (priqueue_init comp) calls = some q →
      List.Chain' (fun x y => comp (VoidPtr.data x) (VoidPtr.data y) ≤ 0) q.m_root) := by
  constructor
  · intro q hq hw hs
    subst hq
    refine ⟨?_, ?_, ?_, ?_, ?_⟩
    · cases hroot : q.m_root with
      | nil =>
        have h0 : q.m_size = 0 := by unfold WellFormed at hw; rw [hroot] at hw; simpa using hw
        refine ⟨_, _, poll_empty q h0, ?_⟩
        rw [hroot]; simp [NonDecreasing]
      | cons p next =>
        refine ⟨_, _, poll_nonempty q hw p next hroot, ?_⟩
        rw [hroot] at hs
        exact List.Chain'.tail hs
    · intro index v q1 h
      exact sublist_nonDecreasing hc hs (remove_at_sublist q index hw v q1 h).1
    · intro index h0 h1
      exact remove_at_completes q index hw h0 h1
    · intro ptr
      obtain ⟨l, hl, he⟩ := remove_spec q ptr hw
      exact ⟨_, _, he, sublist_nonDecreasing hc hs hl⟩
    · exact ⟨_, destroy_eq q hw, by simp [NonDecreasing]⟩
  · intro calls q h
    exact run_nonDecreasing calls (priqueue_init comp) q hc
      (by simp [WellFormed, priqueue_init]) (by simp [NonDecreasing, priqueue_init]) h

theorem removals_keep_order_witness :
    Consistent addrComp ∧
      run (priqueue_init addrComp)
          [Call.offer 5, Call.offer 3, Call.offer 7, Call.offer 4, Call.remove_at 1,
            Call.poll, Call.remove 4]
        = some ⟨[7], 1, addrComp⟩ ∧
      List.Chain' (fun x y => addrComp (VoidPtr.data x) (VoidPtr.data y) ≤ 0) [7] :=
  ⟨addrComp_consistent, rfl,
    (removals_keep_order addrComp addrComp_consistent).2
      [Call.offer 5, Call.offer 3, Call.offer 7, Call.offer 4, Call.remove_at 1,
        Call.poll, Call.remove 4] ⟨[7], 1, addrComp⟩ rfl⟩

/-! ## C18 -/

/-- C18 (no operation faults), evaluated on the code: on the well-formed chain `1, 2` the
call `priqueue_remove_at 1` (index `size - 1`) reads the `next` field of a `NULL` node; so
does `priqueue_remove_at (-1)` on the one-element queue and on the empty queue; and
`priqueue_at (-1)` on the empty queue reads the `pointer` field of a `NULL` node. -/
theorem operations_read_through_null :
    (priqueue_remove_at ⟨[1, 2], 2, addrComp⟩ 1).isNone = true ∧
      (priqueue_remove_at ⟨[7], 1, addrComp⟩ (-1)).isNone = true ∧
      (priqueue_remove_at ⟨[], 0, addrComp⟩ (-1)).isNone = true ∧
      (priqueue_at ⟨[], 0, addrComp⟩ (-1)).isNone = true :=
  ⟨rfl, rfl, rfl, rfl⟩

/-! ## Draining -/

/-- With more fuel than nodes, draining a well-formed queue that stores no `NULL` returns
the chain, head to tail, and leaves the queue empty. -/
theorem drain_eq : ∀ (l : List Nat) (q : priqueue_t) (fuel : Nat), WellFormed q →
    q.m_root = l → (∀ x ∈ l, x ≠ 0) → l.length < fuel →
    drain fuel q = some (l.map VoidPtr.data, { q with m_root := [], m_size := 0 })
  | [], q, fuel, hw, hroot, _, hf => by
    cases fuel with
    | zero => simp at hf
    | succ f =>
      have h0 : q.m_size = 0 := by unfold WellFormed at hw; rw [hroot] at hw; simpa using hw
      simp only [drain, poll_empty q h0, if_true, List.map_nil]
      cases q
      simp only at hroot h0
      simp [hroot, h0]
  | p :: next, q, fuel, hw, hroot, hnn, hf => by
    cases fuel with
    | zero => simp at hf
    | succ f =>
      have hp : p ≠ 0 := hnn p (List.mem_cons_self p next)
      have hne : ¬ (VoidPtr.data p = NULL) := by
        intro h
        unfold NULL at h
        exact hp (VoidPtr.data.inj h)
      have hw1 : WellFormed { q with m_root := next, m_size := q.m_size - 1 } := by
        unfold WellFormed at hw ⊢
        rw [hroot] at hw
        simp only [List.length_cons] at hw
        simp only
        omega
      have ih := drain_eq next { q with m_root := next, m_size := q.m_size - 1 } f hw1 rfl
        (fun x hx => hnn x (List.mem_cons_of_mem p hx)) (by simpa using hf)
      simp only [drain, poll_nonempty q hw p next hroot, hne, if_false, ih, List.map_cons]

/-- In a chain ordered by a consistent comparer, the leading run of elements strictly
below `x` holds every element strictly below `x`. -/
theorem takeWhile_eq_filter {comp : VoidPtr → VoidPtr → Int} (h : Consistent comp) (x : Nat) :
    ∀ l : List Nat, l.Pairwise (Leq comp) →
      l.takeWhile (less comp x) = l.filter (less comp x)
  | [], _ => rfl
  | a :: l, hl => by
    have htail := (List.pairwise_cons.mp hl).2
    have hhead := (List.pairwise_cons.mp hl).1
    by_cases ha : less comp x a = true
    · simp only [List.takeWhile_cons, ha, if_true, List.filter_cons]
      rw [takeWhile_eq_filter h x l htail]
    · have hnil : l.filter (less comp x) = [] := by
        apply List.filter_eq_nil_iff.mpr
        intro e he hlt
        apply ha
        simp only [less, decide_eq_true_eq] at hlt ⊢
        have hae : comp (VoidPtr.data a) (VoidPtr.data e) ≤ 0 := hhead e he
        have hax : comp (VoidPtr.data a) (VoidPtr.data x) ≤ 0 :=
          h.trans a e x hae (le_of_lt hlt)
        rcases lt_or_eq_of_le hax with hlt2 | heq
        · exact hlt2
        · exfalso
          have hxa : comp (VoidPtr.data x) (VoidPtr.data a) = 0 := h.zero_symm a x heq
          have hxe : comp (VoidPtr.data x) (VoidPtr.data e) ≤ 0 :=
            h.trans x a e (le_of_eq hxa) hae
          have hs := h.antisymm e x
          rw [Int.sign_eq_neg_one_of_neg hlt] at hs
          have hpos : Int.sign (comp (VoidPtr.data x) (VoidPtr.data e)) = 1 := by omega
          have := Int.sign_eq_one_iff_pos.mp hpos
          omega
      simp only [List.takeWhile_cons, ha, List.filter_cons, hnil]
      simp

/-! ## C19 -/

/-- C19 (draining), refuted as stated: offering the elements `NULL` and 5 into a fresh
queue under ascending address order and polling until `priqueue_poll` returns `NULL` stops
at the first poll, which returns the stored `NULL`; nothing is collected, element 5 stays
in the queue, and the empty sequence is not a permutation of the offered elements. -/
theorem drain_stops_at_stored_null :
    Consistent addrComp ∧
      (drain 3 (offer_all (priqueue_init addrComp) [0, 5])).map
          (fun r => (r.1, r.2.m_root, r.2.m_size)) = some ([], [5], 1) ∧
      ¬ List.Perm ([] : List VoidPtr) [VoidPtr.data 0, VoidPtr.data 5] :=
  ⟨addrComp_consistent, rfl, by simp⟩

/-- C19 (draining), amended: for a consistent comparer and a finite list `xs` of non-`NULL`
elements, offering all of `xs` into a fresh queue and then polling until `priqueue_poll`
returns `NULL` completes (any fuel above the length of `xs` is enough), empties the queue,
and produces a sequence that is a permutation of `xs` in which every adjacent pair is in
order and each polled element `e` satisfies `compare(e, y) ≤ 0` for every `y` polled after
it, that is for every element still in the queue when `e` is polled. -/
theorem drain_sorted_perm (comp : VoidPtr → VoidPtr → Int) (hc : Consistent comp)
    (xs : List Nat) (hnn : ∀ x ∈ xs, x ≠ 0) (fuel : Nat) (hf : xs.length < fuel) :
    ∃ (out : List Nat) (q1 : priqueue_t),
      drain fuel (offer_all (priqueue_init comp) xs) = some (out.map VoidPtr.data, q1) ∧
      q1.m_root = [] ∧ priqueue_size q1 = 0 ∧
      out.Perm xs ∧
      List.Chain' (fun x y => comp (VoidPtr.data x) (VoidPtr.data y) ≤ 0) out ∧
      out.Pairwise (fun e y => comp (VoidPtr.data e) (VoidPtr.data y) ≤ 0) := by
  have hinit : WellFormed (priqueue_init comp) := by simp [WellFormed, priqueue_init]
  obtain ⟨_, hw, hs⟩ := offer_all_invariant xs (priqueue_init comp) hc hinit
    (by simp [NonDecreasing, priqueue_init])
  have hperm : (offer_all (priqueue_init comp) xs).m_root.Perm xs := by
    have h := offer_all_perm xs (priqueue_init comp) hinit
    simp only [priqueue_init, List.append_nil] at h
    exact h
  have hnn2 : ∀ x ∈ (offer_all (priqueue_init comp) xs).m_root, x ≠ 0 :=
    fun x hx => hnn x (hperm.mem_iff.mp hx)
  have hlen : (offer_all (priqueue_init comp) xs).m_root.length < fuel := by
    rw [hperm.length_eq]; exact hf
  exact ⟨(offer_all (priqueue_init comp) xs).m_root, _,
    drain_eq _ _ fuel hw rfl hnn2 hlen, rfl, rfl, hperm, hs, nonDecreasing_pairwise hc hs⟩

theorem drain_sorted_perm_witness :
    Consistent addrComp ∧ (∀ x ∈ ([5, 3, 5, 1] : List Nat), x ≠ 0) ∧
      (drain 5 (offer_all (priqueue_init addrComp) [5, 3, 5, 1])).map Prod.fst
        = some [VoidPtr.data 1, VoidPtr.data 3, VoidPtr.data 5, VoidPtr.data 5] ∧
      ∃ (out : List Nat) (q1 : priqueue_t),
        drain 5 (offer_all (priqueue_init addrComp) [5, 3, 5, 1])
          = some (out.map VoidPtr.data, q1) ∧ out.Perm [5, 3, 5, 1] :=
  ⟨addrComp_consistent, by decide, rfl,
    by
      obtain ⟨out, q1, h1, _, _, h4, _⟩ :=
        drain_sorted_perm addrComp addrComp_consistent [5, 3, 5, 1] (by decide) 5 (by decide)
      exact ⟨out, q1, h1, h4⟩⟩

/-! ## C20 -/

/-- C20 (insert index counts the strictly smaller elements): for a consistent comparer, a
well-formed queue whose chain is non-decreasing and any element `x`, the index returned by
`priqueue_offer` is the number of elements `e` of the whole chain with
`compare(e, x) < 0`. -/
theorem insert_index_counts_smaller (q : priqueue_t) (x : Nat) (hc : Consistent q.m_comp)
    (hw : WellFormed q) (hs : NonDecreasing q.m_comp q.m_root) :
    (priqueue_offer q x).1
      = ((q.m_root.countP
          (fun e => decide (q.m_comp (VoidPtr.data e) (VoidPtr.data x) < 0)) : Nat) : Int) := by
  have hless : (fun e => decide (q.m_comp (VoidPtr.data e) (VoidPtr.data x) < 0))
      = less q.m_comp x := rfl
  rw [hless, offer_eq q x (wellFormed_zero hw), List.countP_eq_length_filter,
    takeWhile_eq_filter hc x q.m_root (nonDecreasing_pairwise hc hs)]

theorem insert_index_counts_smaller_witness :
    Consistent levelComp ∧ WellFormed ⟨[1, 10, 12, 20, 35], 5, levelComp⟩ ∧
      NonDecreasing levelComp [1, 10, 12, 20, 35] ∧
      (priqueue_offer ⟨[1, 10, 12, 20, 35], 5, levelComp⟩ 25).1 = 3 ∧
      (([1, 10, 12, 20, 35] : List Nat).countP
          (fun e => decide (levelComp (VoidPtr.data e) (VoidPtr.data 25) < 0)) : Nat) = 3 ∧
      (priqueue_offer ⟨[1, 10, 12, 20, 35], 5, levelComp⟩ 25).1
        = ((([1, 10, 12, 20, 35] : List Nat).countP
            (fun e => decide (levelComp (VoidPtr.data e) (VoidPtr.data 25) < 0)) : Nat) : Int) :=
  ⟨levelComp_consistent, by simp [WellFormed], by simp [NonDecreasing, Leq, levelComp],
    by decide, by decide,
    insert_index_counts_smaller ⟨[1, 10, 12, 20, 35], 5, levelComp⟩ 25 levelComp_consistent
      (by simp [WellFormed]) (by simp [NonDecreasing, Leq, levelComp])⟩

end Priqueue
